import Mathlib

/-!
# Verification of the `go-stats-calculator` statistics engine

This file gives a shallow embedding, in Lean 4, of the statistics engine of
`stats.go` (version 1.5.0): `calculatePercentile`, `generateSparkline` and
`computeStats`, together with proofs of the functional-correctness, safety
and invariant properties stated in the accompanying specification.

Modelling conventions:

* Go `float64` arithmetic is modelled by exact rational arithmetic (`ℚ`).
  All concrete fixtures used below consist of small dyadic rationals on
  which IEEE-754 double arithmetic is exact, so the model agrees with the
  program on every concrete evaluation performed here.
* A Go slice read `s[i]` panics when `i` is out of range; panicking code
  paths are modelled by `Option`, with `none` denoting a runtime panic.
* `computeStats` returns `(*Stats, error)`; we model this by `Option CResult`
  where `CResult` distinguishes the returned error from a successful result,
  and the outer `none` again denotes a panic.
* Go `sort.Float64s` is modelled by `List.insertionSort (· ≤ ·)` (any
  correct sorting routine denotes the same function on `ℚ`).
* Go map iteration (in the mode finder) has unspecified order, but the Go
  loop keeps exactly the distinct keys whose frequency equals the maximum
  frequency, and the result is sorted afterwards; its denotation is
  therefore order-independent and is modelled directly on the list of
  distinct values.
-/

-- The Batteries rational-number operations are `@[irreducible]`, which
-- blocks elaboration-time evaluation of concrete rational arithmetic by
-- `decide`; restore the ordinary reducibility of their public definitions
-- so that concrete runs of the embedded program can be checked by `decide`.
set_option allowUnsafeReducibility true
attribute [semireducible] Rat.mul Rat.inv Rat.add Rat.sub Rat.ofScientific

/-- Go slice indexing `sortedData[i]` with an `Int` index computed from a
float: panics (`none`) when `i` is negative or past the end. -/
def goIndex (l : List ℚ) (i : ℤ) : Option ℚ :=
  if 0 ≤ i then l.get? i.toNat else none

/-- Go's `int(x)` conversion on a float: truncation toward zero. -/
def goTrunc (q : ℚ) : ℤ :=
  if 0 ≤ q then ⌊q⌋ else ⌈q⌉

/-- Embedding of `calculatePercentile` (stats.go:650-670).

```go
n := len(sortedData)
if n == 0 { return 0 }
if n == 1 { return sortedData[0] }
rank := p * float64(n-1)
lowerIndex := math.Floor(rank)
upperIndex := math.Ceil(rank)
if lowerIndex == upperIndex { return sortedData[int(rank)] }
weight := rank - lowerIndex
return sortedData[int(lowerIndex)]*(1-weight) + sortedData[int(upperIndex)]*weight
```

When `lowerIndex == upperIndex` the rank is an integer, so `int(rank)`
(truncation) coincides with `⌊rank⌋`; likewise `int(lowerIndex)` and
`int(upperIndex)` are `⌊rank⌋` and `⌈rank⌉`.  Out-of-range index accesses
(possible when `p` is outside `[0,1]`) are panics, modelled by `none`. -/
def calculatePercentile (sortedData : List ℚ) (p : ℚ) : Option ℚ :=
  let n := sortedData.length
  if n = 0 then some 0
  else if n = 1 then goIndex sortedData 0
  else
    let rank := p * ((n : ℚ) - 1)
    let lowerIndex : ℤ := ⌊rank⌋
    let upperIndex : ℤ := ⌈rank⌉
    if lowerIndex = upperIndex then goIndex sortedData lowerIndex
    else
      let weight := rank - (lowerIndex : ℚ)
      do
        let lv ← goIndex sortedData lowerIndex
        let uv ← goIndex sortedData upperIndex
        pure (lv * (1 - weight) + uv * weight)

/-- The percentile-interpolator contract exactly as the specification words
it (spec §4.1): empty input gives `0`, a single element is returned for any
`p`, otherwise with `rank = p × (n−1)`, `lo = ⌊rank⌋`, `hi = ⌈rank⌉` the
result is `sortedData[rank]` when `lo = hi` and the linear interpolation
`sortedData[lo]×(1−w) + sortedData[hi]×w`, `w = rank − lo`, otherwise.
This is the (total) specification-side definition; the theorem for claim C1
relates it to the code-side `calculatePercentile`. -/
def percentileContract (sortedData : List ℚ) (p : ℚ) : ℚ :=
  let n := sortedData.length
  if n = 0 then 0
  else if n = 1 then sortedData.headI
  else
    let rank := p * ((n : ℚ) - 1)
    let lo : ℤ := ⌊rank⌋
    let hi : ℤ := ⌈rank⌉
    if lo = hi then sortedData.getD lo.toNat 0
    else
      let w := rank - (lo : ℚ)
      sortedData.getD lo.toNat 0 * (1 - w) + sortedData.getD hi.toNat 0 * w

/-- Go `sort.Float64s`: ascending sort. -/
def sortList (l : List ℚ) : List ℚ :=
  List.insertionSort (fun a b => a ≤ b) l

/-- The 8-rune block palette of `generateSparkline`. -/
def blocks : List Char := ['▁', '▂', '▃', '▄', '▅', '▆', '▇', '█']

/-- Bucket index of a value in `generateSparkline`:
`idx := int((v - minVal) / binWidth); if idx >= numBins { idx = numBins - 1 }`. -/
def bucketIdx (minVal binWidth : ℚ) (numBins : ℤ) (v : ℚ) : ℤ :=
  let idx := goTrunc ((v - minVal) / binWidth)
  if numBins ≤ idx then numBins - 1 else idx

/-- `bins[idx]++`: panics (`none`) when `idx` is out of range. -/
def bumpAt (bins : List ℕ) (i : ℤ) : Option (List ℕ) :=
  if 0 ≤ i ∧ i.toNat < bins.length then
    some (bins.set i.toNat (bins.getD i.toNat 0 + 1))
  else none

/-- The bucket-filling loop of `generateSparkline`:
`for _, v := range sortedData { ...; bins[idx]++ }`. -/
def fillBins (minVal binWidth : ℚ) (numBins : ℤ) : List ℚ → List ℕ → Option (List ℕ)
  | [], bins => some bins
  | v :: rest, bins => do
      let bins' ← bumpAt bins (bucketIdx minVal binWidth numBins v)
      fillBins minVal binWidth numBins rest bins'

/-- The rune-rendering loop of `generateSparkline`: an empty bucket maps to
`blocks[0]`, a non-empty one to `blocks[(c*7)/maxCount]`.  Go integer
division by zero panics, hence the `maxCount = 0` guard (that branch is
unreachable when some bucket is non-empty). -/
def renderBins (maxCount : ℕ) : List ℕ → Option (List Char)
  | [] => some []
  | c :: rest => do
      let r ← if c = 0 then blocks.get? 0
              else if maxCount = 0 then none
              else blocks.get? ((c * 7) / maxCount)
      let tail ← renderBins maxCount rest
      pure (r :: tail)

/-- Embedding of `generateSparkline` (stats.go:607-648).  The returned Go
string is modelled as its list of runes; `none` models a panic (reachable
only when the function is misused, e.g. `numBins ≤ 0` on non-degenerate
data).  `maxCount` is the maximum bucket count, computed in Go by a linear
scan starting from `0`. -/
def generateSparkline (sortedData : List ℚ) (numBins : ℤ) : Option (List Char) :=
  let n := sortedData.length
  if n < 2 then some []
  else
    let minVal := sortedData.headI
    let maxVal := sortedData.getD (n - 1) 0
    if minVal = maxVal then some []
    else
      let binWidth := (maxVal - minVal) / (numBins : ℚ)
      do
        let bins ← fillBins minVal binWidth numBins sortedData
          (List.replicate numBins.toNat 0)
        let maxCount := bins.foldl max 0
        renderBins maxCount bins

/-- Maximum frequency of the mode-finder loop (stats.go:543-558): the Go
code folds `max` over the frequency map; its value is the maximum, over the
distinct values of `data`, of the occurrence count (and `0` for empty
data). -/
def goMaxFreq (data : List ℚ) : ℕ :=
  (data.dedup.map (fun v => data.count v)).foldl max 0

/-- The mode list of `computeStats` (stats.go:543-566): the Go loop over the
frequency map retains exactly the distinct values whose frequency equals the
maximum frequency (map iteration order does not affect this set); if the
maximum frequency is at most 1 the mode list is empty, otherwise the
retained values are sorted ascending. -/
def goModes (data : List ℚ) : List ℚ :=
  if goMaxFreq data ≤ 1 then []
  else sortList (data.dedup.filter (fun v => data.count v == goMaxFreq data))

/-- The custom-percentile loop of `computeStats` (stats.go:532-538):
`stats.CustomPercentiles[p] = calculatePercentile(sortedData, p/100.0)` for
each requested `p`, modelled as an association list in request order. -/
def mapPercentiles (sortedData : List ℚ) : List ℚ → Option (List (ℚ × ℚ))
  | [] => some []
  | p :: rest => do
      let v ← calculatePercentile sortedData (p / 100)
      let tail ← mapPercentiles sortedData rest
      pure ((p, v) :: tail)

/-- The result record of `computeStats` (the `Stats` struct, stats.go:353-376).
The `StdDev`, `Skewness`, `Kurtosis`, `CV`, `CVValid` and `HasNegativeData`
fields are not modelled as record fields: no other modelled field depends on
them, and `StdDev = math.Sqrt(Variance)` is treated through `Real.sqrt` of
the `variance` field in the theorems that concern it. -/
structure Stats where
  count : ℕ
  sum : ℚ
  mean : ℚ
  median : ℚ
  mode : List ℚ
  min : ℚ
  max : ℚ
  variance : ℚ
  q1 : ℚ
  q3 : ℚ
  p95 : ℚ
  p99 : ℚ
  iqr : ℚ
  outliers : List ℚ
  customPercentiles : List (ℚ × ℚ)
  sparkline : List Char
deriving DecidableEq

/-- Outcome of `computeStats`: either the returned Go error or a result. -/
inductive CResult where
  | err : String → CResult
  | ok : Stats → CResult
deriving DecidableEq

/-- Embedding of `computeStats` (stats.go:488-605, version 1.5.0 signature
`computeStats(data, customPercentiles, iqrMultiplier, numBins)`).  `none`
models a panic inside the call (possible only for configurations that the
CLI layer's validation would have rejected); `some (CResult.err _)` is the
returned error, `some (CResult.ok _)` the successful result. -/
def computeStats (data : List ℚ) (customPercentiles : List ℚ)
    (iqrMultiplier : ℚ) (numBins : ℤ) : Option CResult :=
  let count := data.length
  if count = 0 then some (CResult.err "input contains no valid numbers")
  else
    let sortedData := sortList data
    let minV := sortedData.headI
    let maxV := sortedData.getD (count - 1) 0
    let sum := data.sum
    let mean := sum / (count : ℚ)
    let variance :=
      if 1 < count then
        (data.map (fun v => (v - mean) ^ 2)).sum / ((count : ℚ) - 1)
      else 0
    do
      let median ← calculatePercentile sortedData 0.50
      let q1 ← calculatePercentile sortedData 0.25
      let q3 ← calculatePercentile sortedData 0.75
      let p95 ← calculatePercentile sortedData 0.95
      let p99 ← calculatePercentile sortedData 0.99
      let custom ← mapPercentiles sortedData customPercentiles
      let iqr := q3 - q1
      let mode := goModes data
      let lowerBound := q1 - iqrMultiplier * iqr
      let upperBound := q3 + iqrMultiplier * iqr
      let outliers :=
        sortList (data.filter (fun v => decide (v < lowerBound) || decide (upperBound < v)))
      let spark ← generateSparkline sortedData numBins
      some (CResult.ok
        { count := count, sum := sum, mean := mean, median := median,
          mode := mode, min := minV, max := maxV, variance := variance,
          q1 := q1, q3 := q3, p95 := p95, p99 := p99, iqr := iqr,
          outliers := outliers, customPercentiles := custom,
          sparkline := spark })

/-- Projection of a successful `computeStats` run. -/
def runStats (data customPercentiles : List ℚ) (iqrMultiplier : ℚ)
    (numBins : ℤ) : Option Stats :=
  match computeStats data customPercentiles iqrMultiplier numBins with
  | some (CResult.ok s) => some s
  | _ => none

/-- The 31-value test fixture of the repository's test suite. -/
def testData : List ℚ :=
  [5, 10, 15.5, 20, 25, 30, 35, 40, 45, 50,
   55, 60, 65, 70, 75.25, 80, 85, 90, 95, 100,
   12.5, 37.5, 62.5, 87.5, 50, 50, 50, 3, 150, 7.75, 42]

/-- The linear interpolant `sortedData[⌊r⌋]·(1−w) + sortedData[⌈r⌉]·w`
with `w = r − ⌊r⌋`; both branches of the interpolator compute it. -/
def interp (l : List ℚ) (r : ℚ) : ℚ :=
  l.getD ⌊r⌋.toNat 0 * (1 - (r - ⌊r⌋)) + l.getD ⌈r⌉.toNat 0 * (r - ⌊r⌋)

/-- The result of `computeStats([1,2], nil, 1.5, 16)`, used as a concrete
witness for the theorems about successful runs. -/
def statsTwo : Stats :=
  { count := 2, sum := 3, mean := 3/2, median := 3/2, mode := [],
    min := 1, max := 2, variance := 1/2, q1 := 5/4, q3 := 7/4,
    p95 := 39/20, p99 := 199/100, iqr := 1/2, outliers := [],
    customPercentiles := [],
    sparkline := ['█', '▁', '▁', '▁', '▁', '▁', '▁', '▁',
                  '▁', '▁', '▁', '▁', '▁', '▁', '▁', '█'] }

/-- A store of Go `[]float64` slices; a slice value is a reference (index)
into the store.  `computeStats`'s slice-level mutation effects are modelled
against it for the frame property (claim C9). -/
structure SliceHeap where
  arrays : List (List ℚ)
deriving DecidableEq

/-- Read the slice behind a reference. -/
def SliceHeap.read (h : SliceHeap) (r : ℕ) : List ℚ :=
  h.arrays.getD r []

/-- Overwrite the slice behind a reference (an in-place mutation such as
`copy` into it or `sort.Float64s` of it). -/
def SliceHeap.write (h : SliceHeap) (r : ℕ) (l : List ℚ) : SliceHeap :=
  ⟨h.arrays.set r l⟩

/-- Allocate a fresh slice (`make`/`append` growing from nil) and return
its reference. -/
def SliceHeap.alloc (h : SliceHeap) (l : List ℚ) : SliceHeap × ℕ :=
  (⟨h.arrays ++ [l]⟩, h.arrays.length)

/-- The slice-level effects of `computeStats` on the caller's slice
(stats.go:494-497 together with the in-place sorts of the freshly built
mode and outlier slices, stats.go:562-577): a fresh slice is allocated
(`make([]float64, count)`), the caller's data is copied into it (`copy`),
and the copy — never the caller's slice — is sorted in place
(`sort.Float64s(sortedData)`).  The mode and outlier lists are reads of
the caller's data written into further fresh slices.  Returns the final
heap together with the references of the sorted copy, the mode slice and
the outlier slice. -/
def computeStatsSliceEffects (h₀ : SliceHeap) (dataRef : ℕ) (k : ℚ) :
    SliceHeap × ℕ × ℕ × ℕ :=
  let (h₁, sortedRef) := h₀.alloc (List.replicate (h₀.read dataRef).length 0)
  let h₂ := h₁.write sortedRef (h₁.read dataRef)
  let h₃ := h₂.write sortedRef (sortList (h₂.read sortedRef))
  let (h₄, modeRef) := h₃.alloc (goModes (h₃.read dataRef))
  let q1 := percentileContract (h₄.read sortedRef) 0.25
  let q3 := percentileContract (h₄.read sortedRef) 0.75
  let (h₅, outRef) := h₄.alloc (sortList ((h₄.read dataRef).filter (fun v =>
      decide (v < q1 - k * (q3 - q1)) || decide (q3 + k * (q3 - q1) < v))))
  (h₅, sortedRef, modeRef, outRef)

/-! ### Indexing and sortedness facts -/

lemma goIndex_eq_some {l : List ℚ} {i : ℤ} (h0 : 0 ≤ i) (hl : i.toNat < l.length) :
    goIndex l i = some (l.getD i.toNat 0) := by
  simp [goIndex, h0, List.get?_eq_getElem?, List.getElem?_eq_getElem hl,
    List.getD_eq_getElem l 0 hl]

lemma sorted_getD_mono {l : List ℚ} (hs : l.Sorted (· ≤ ·)) {i j : ℕ}
    (hij : i ≤ j) (hj : j < l.length) : l.getD i 0 ≤ l.getD j 0 := by
  have hi : i < l.length := lt_of_le_of_lt hij hj
  rw [List.getD_eq_getElem l 0 hi, List.getD_eq_getElem l 0 hj]
  exact hs.rel_get_of_le (a := ⟨i, hi⟩) (b := ⟨j, hj⟩) hij

lemma headI_eq_getD {l : List ℚ} (h : l ≠ []) : l.headI = l.getD 0 0 := by
  cases l with
  | nil => exact absurd rfl h
  | cons a t => rfl

lemma sorted_headI_le {l : List ℚ} (hs : l.Sorted (· ≤ ·)) {x : ℚ} (hx : x ∈ l) :
    l.headI ≤ x := by
  cases l with
  | nil => simp at hx
  | cons a t =>
    rcases List.mem_cons.mp hx with rfl | hx
    · simp
    · exact (List.sorted_cons.mp hs).1 x hx

lemma sorted_le_getLast {l : List ℚ} (hs : l.Sorted (· ≤ ·)) {x : ℚ} (hx : x ∈ l) :
    x ≤ l.getD (l.length - 1) 0 := by
  obtain ⟨i, rfl⟩ := List.mem_iff_get.mp hx
  have hlen : i.val < l.length := i.isLt
  have hget : l.get i = l.getD i 0 := by
    rw [List.get_eq_getElem, List.getD_eq_getElem l 0 i.isLt]
  rw [hget]
  exact sorted_getD_mono hs (by omega) (by omega)

lemma getLast_mem_of_ne_nil {l : List ℚ} (h : l ≠ []) :
    l.getD (l.length - 1) 0 ∈ l := by
  have hlen : 0 < l.length := List.length_pos.mpr h
  rw [List.getD_eq_getElem l 0 (by omega)]
  exact List.getElem_mem _

lemma headI_mem_of_ne_nil {l : List ℚ} (h : l ≠ []) : l.headI ∈ l := by
  cases l with
  | nil => exact absurd rfl h
  | cons a t => exact List.mem_cons_self a t

/-! ### The percentile interpolator -/

lemma percentileContract_eq_interp {l : List ℚ} {p : ℚ} (hn : 2 ≤ l.length) :
    percentileContract l p = interp l (p * ((l.length : ℚ) - 1)) := by
  have h0 : l.length ≠ 0 := by omega
  have h1 : l.length ≠ 1 := by omega
  unfold percentileContract interp
  simp only [if_neg h0, if_neg h1]
  set r := p * ((l.length : ℚ) - 1) with hr
  by_cases hfc : (⌊r⌋ : ℤ) = ⌈r⌉
  · rw [if_pos hfc]
    have hrf : r = (⌊r⌋ : ℚ) := by
      have h₁ := Int.floor_le r
      have h₂ := Int.le_ceil r
      have : ((⌈r⌉ : ℤ) : ℚ) = ((⌊r⌋ : ℤ) : ℚ) := by rw [hfc]
      linarith
    rw [← hfc, ← hrf]
    ring
  · rw [if_neg hfc]

lemma rank_index_bounds {l : List ℚ} {r : ℚ} (_hn : 2 ≤ l.length) (h0 : 0 ≤ r)
    (h1 : r ≤ (l.length : ℚ) - 1) :
    0 ≤ ⌊r⌋ ∧ ⌈r⌉ ≤ (l.length : ℤ) - 1 ∧ ⌊r⌋.toNat ≤ ⌈r⌉.toNat ∧
      ⌈r⌉.toNat < l.length := by
  have hf : 0 ≤ ⌊r⌋ := Int.floor_nonneg.mpr h0
  have hc : ⌈r⌉ ≤ (l.length : ℤ) - 1 := Int.ceil_le.mpr (by push_cast; linarith)
  have hfc : ⌊r⌋ ≤ ⌈r⌉ := Int.floor_le_ceil r
  refine ⟨hf, hc, ?_, ?_⟩ <;> omega

lemma interp_between {l : List ℚ} {r : ℚ} (hs : l.Sorted (· ≤ ·))
    (hn : 2 ≤ l.length) (h0 : 0 ≤ r) (h1 : r ≤ (l.length : ℚ) - 1) :
    l.getD ⌊r⌋.toNat 0 ≤ interp l r ∧ interp l r ≤ l.getD ⌈r⌉.toNat 0 := by
  obtain ⟨hf, hc, hfcn, hcn⟩ := rank_index_bounds hn h0 h1
  have hab : l.getD ⌊r⌋.toNat 0 ≤ l.getD ⌈r⌉.toNat 0 := sorted_getD_mono hs hfcn hcn
  have hw0 : 0 ≤ r - (⌊r⌋ : ℚ) := by have := Int.floor_le r; linarith
  have hw1 : r - (⌊r⌋ : ℚ) ≤ 1 := by have := Int.lt_floor_add_one r; linarith
  unfold interp
  constructor <;> nlinarith

lemma interp_mono {l : List ℚ} (hs : l.Sorted (· ≤ ·)) (hn : 2 ≤ l.length)
    {r r' : ℚ} (h0 : 0 ≤ r) (hrr : r ≤ r') (h1 : r' ≤ (l.length : ℚ) - 1) :
    interp l r ≤ interp l r' := by
  have h0' : 0 ≤ r' := le_trans h0 hrr
  have h1r : r ≤ (l.length : ℚ) - 1 := le_trans hrr h1
  have hff : ⌊r⌋ ≤ ⌊r'⌋ := Int.floor_le_floor hrr
  obtain ⟨hf, hc, hfcn, hcn⟩ := rank_index_bounds hn h0 h1r
  obtain ⟨hf', hc', hfcn', hcn'⟩ := rank_index_bounds hn h0' h1
  rcases eq_or_lt_of_le hff with heq | hlt
  · -- same cell: the interpolation weight grows within one segment
    have hwr0 : 0 ≤ r - (⌊r⌋ : ℚ) := by have := Int.floor_le r; linarith
    have hwr'0 : 0 ≤ r' - (⌊r'⌋ : ℚ) := by have := Int.floor_le r'; linarith
    rcases eq_or_lt_of_le hrr with rfl | hlt'
    · exact le_refl _
    · -- here r < r', so r' is not an integer and ⌈r'⌉ = ⌊r'⌋ + 1
      have hr'ni : (⌊r'⌋ : ℚ) < r' := by
        rcases lt_or_eq_of_le (Int.floor_le r') with h | h
        · exact h
        · exfalso
          have hfl : (⌊r⌋ : ℚ) ≤ r := Int.floor_le r
          rw [heq, h] at hfl
          linarith
      have hcf' : ⌈r'⌉ = ⌊r'⌋ + 1 := by
        have h₁ := Int.ceil_le_floor_add_one r'
        have h₂ : ⌊r'⌋ < ⌈r'⌉ := by
          have := Int.le_ceil r'
          have : (⌊r'⌋ : ℚ) < (⌈r'⌉ : ℚ) := lt_of_lt_of_le hr'ni (Int.le_ceil r')
          exact_mod_cast this
        omega
      have hab' : l.getD ⌊r'⌋.toNat 0 ≤ l.getD ⌈r'⌉.toNat 0 :=
        sorted_getD_mono hs hfcn' hcn'
      rcases eq_or_lt_of_le (Int.floor_le r) with hri | hri
      · -- r = ⌊r⌋ exactly: interp l r is the left endpoint of the cell
        unfold interp
        rw [heq] at hri ⊢
        rw [← hri]
        simp only [sub_self]
        nlinarith
      · -- both r and r' lie strictly inside the same cell
        have hcfr : ⌈r⌉ = ⌊r⌋ + 1 := by
          have h₁ := Int.ceil_le_floor_add_one r
          have h₂ : ⌊r⌋ < ⌈r⌉ := by
            have : (⌊r⌋ : ℚ) < (⌈r⌉ : ℚ) := lt_of_lt_of_le hri (Int.le_ceil r)
            exact_mod_cast this
          omega
        unfold interp
        rw [hcfr, heq, ← hcf']
        have hab'' : l.getD ⌊r'⌋.toNat 0 ≤ l.getD ⌈r'⌉.toNat 0 := hab'
        rw [heq] at hwr0
        nlinarith
  · -- different cells: pass through the shared boundary values
    have h₁ : interp l r ≤ l.getD ⌈r⌉.toNat 0 := (interp_between hs hn h0 h1r).2
    have h₂ : l.getD ⌊r'⌋.toNat 0 ≤ interp l r' := (interp_between hs hn h0' h1).1
    have h₃ : ⌈r⌉ ≤ ⌊r'⌋ := by
      have := Int.ceil_le_floor_add_one r
      omega
    have hb : ⌊r'⌋.toNat < l.length := lt_of_le_of_lt hfcn' hcn'
    have h₄ : l.getD ⌈r⌉.toNat 0 ≤ l.getD ⌊r'⌋.toNat 0 :=
      sorted_getD_mono hs (by omega) hb
    linarith

lemma percentileContract_mono {l : List ℚ} (hs : l.Sorted (· ≤ ·)) (hne : l ≠ [])
    {p p' : ℚ} (h0 : 0 ≤ p) (hpp : p ≤ p') (h1 : p' ≤ 1) :
    percentileContract l p ≤ percentileContract l p' := by
  rcases Nat.lt_or_ge l.length 2 with hn | hn
  · have hlen : l.length = 1 := by
      have := List.length_pos.mpr hne
      omega
    unfold percentileContract
    simp [hlen]
  · rw [percentileContract_eq_interp hn, percentileContract_eq_interp hn]
    have hl1 : (1 : ℚ) ≤ (l.length : ℚ) - 1 := by
      have : (2 : ℚ) ≤ (l.length : ℚ) := by exact_mod_cast hn
      linarith
    refine interp_mono hs hn ?_ ?_ ?_
    · positivity
    · have : (0 : ℚ) ≤ (l.length : ℚ) - 1 := by linarith
      exact mul_le_mul_of_nonneg_right hpp this
    · calc p' * ((l.length : ℚ) - 1) ≤ 1 * ((l.length : ℚ) - 1) :=
            mul_le_mul_of_nonneg_right h1 (by linarith)
        _ = (l.length : ℚ) - 1 := one_mul _

lemma percentileContract_bounds {l : List ℚ} (hs : l.Sorted (· ≤ ·)) (hne : l ≠ [])
    {p : ℚ} (h0 : 0 ≤ p) (h1 : p ≤ 1) :
    l.headI ≤ percentileContract l p ∧
      percentileContract l p ≤ l.getD (l.length - 1) 0 := by
  rcases Nat.lt_or_ge l.length 2 with hn | hn
  · have hlen : l.length = 1 := by
      have := List.length_pos.mpr hne
      omega
    unfold percentileContract
    simp [hlen, headI_eq_getD hne]
  · rw [percentileContract_eq_interp hn]
    set r := p * ((l.length : ℚ) - 1) with hr
    have hl1 : (1 : ℚ) ≤ (l.length : ℚ) - 1 := by
      have : (2 : ℚ) ≤ (l.length : ℚ) := by exact_mod_cast hn
      linarith
    have hr0 : 0 ≤ r := by positivity
    have hr1 : r ≤ (l.length : ℚ) - 1 := by
      calc r ≤ 1 * ((l.length : ℚ) - 1) := mul_le_mul_of_nonneg_right h1 (by linarith)
        _ = (l.length : ℚ) - 1 := one_mul _
    obtain ⟨hf, hc, hfcn, hcn⟩ := rank_index_bounds hn hr0 hr1
    obtain ⟨hlo, hhi⟩ := interp_between hs hn hr0 hr1
    constructor
    · refine le_trans ?_ hlo
      rw [headI_eq_getD hne]
      exact sorted_getD_mono hs (Nat.zero_le _) (lt_of_le_of_lt hfcn hcn)
    · refine le_trans hhi ?_
      exact sorted_getD_mono hs (by omega) (by omega)

lemma calculatePercentile_eq_some {l : List ℚ} {p : ℚ} (hne : l ≠ [])
    (h0 : 0 ≤ p) (h1 : p ≤ 1) :
    calculatePercentile l p = some (percentileContract l p) := by
  have hpos : 0 < l.length := List.length_pos.mpr hne
  rcases Nat.lt_or_ge l.length 2 with hn | hn
  · have hlen : l.length = 1 := by omega
    unfold calculatePercentile percentileContract
    rw [goIndex_eq_some (le_refl 0) (by omega)]
    simp [hlen, headI_eq_getD hne]
  · have hn0 : l.length ≠ 0 := by omega
    have hn1 : l.length ≠ 1 := by omega
    unfold calculatePercentile percentileContract
    simp only [if_neg hn0, if_neg hn1]
    set r := p * ((l.length : ℚ) - 1) with hrdef
    have hl1 : (1 : ℚ) ≤ (l.length : ℚ) - 1 := by
      have : (2 : ℚ) ≤ (l.length : ℚ) := by exact_mod_cast hn
      linarith
    have hr0 : 0 ≤ r := by positivity
    have hr1 : r ≤ (l.length : ℚ) - 1 := by
      calc r ≤ 1 * ((l.length : ℚ) - 1) := mul_le_mul_of_nonneg_right h1 (by linarith)
        _ = (l.length : ℚ) - 1 := one_mul _
    obtain ⟨hf, hc, hfcn, hcn⟩ := rank_index_bounds hn hr0 hr1
    by_cases hfc : (⌊r⌋ : ℤ) = ⌈r⌉
    · rw [if_pos hfc, if_pos hfc, goIndex_eq_some hf (by omega)]
    · rw [if_neg hfc, if_neg hfc,
        goIndex_eq_some hf (by omega), goIndex_eq_some (le_trans hf (Int.floor_le_ceil r)) (by omega)]
      rfl

/-! ### Sparkline safety -/

lemma bumpAt_inv {bins bins' : List ℕ} {i : ℤ} (h : bumpAt bins i = some bins') :
    0 ≤ i ∧ i.toNat < bins.length ∧
      bins' = bins.set i.toNat (bins.getD i.toNat 0 + 1) := by
  unfold bumpAt at h
  split at h
  next hc =>
    injection h with h
    exact ⟨hc.1, hc.2, h.symm⟩
  next => simp at h

lemma bumpAt_eq_some {bins : List ℕ} {i : ℤ} (h0 : 0 ≤ i)
    (hl : i.toNat < bins.length) :
    bumpAt bins i = some (bins.set i.toNat (bins.getD i.toNat 0 + 1)) := by
  unfold bumpAt
  rw [if_pos ⟨h0, hl⟩]

lemma getD_set_le (bins : List ℕ) (i j : ℕ) :
    bins.getD j 0 ≤ (bins.set i (bins.getD i 0 + 1)).getD j 0 := by
  by_cases hj : j < bins.length
  · by_cases hij : i = j
    · subst hij
      rw [List.getD_eq_getElem _ 0 hj, List.getD_eq_getElem _ 0 (by simpa using hj),
        List.getElem_set_self (by simpa using hj)]
      omega
    · rw [List.getD_eq_getElem _ 0 hj, List.getD_eq_getElem _ 0 (by simpa using hj),
        List.getElem_set_ne hij]
  · have hj' : ¬ j < (bins.set i (bins.getD i 0 + 1)).length := by simpa using hj
    rw [List.getD_eq_default _ 0 (by omega), List.getD_eq_default _ 0 (by simpa using hj')]

lemma fillBins_length_getD {minVal binWidth : ℚ} {nb : ℤ} :
    ∀ {data : List ℚ} {bins bins' : List ℕ},
      fillBins minVal binWidth nb data bins = some bins' →
      bins'.length = bins.length ∧ ∀ j, bins.getD j 0 ≤ bins'.getD j 0 := by
  intro data
  induction data with
  | nil =>
    intro bins bins' h
    injection h with h
    subst h
    exact ⟨rfl, fun j => le_refl _⟩
  | cons v rest ih =>
    intro bins bins' h
    unfold fillBins at h
    rcases hb : bumpAt bins (bucketIdx minVal binWidth nb v) with _ | bins₁
    · rw [hb] at h; exact Option.noConfusion h
    · rw [hb] at h
      replace h : fillBins minVal binWidth nb rest bins₁ = some bins' := h
      obtain ⟨h0, hlt, hset⟩ := bumpAt_inv hb
      obtain ⟨hlen, hle⟩ := ih h
      subst hset
      refine ⟨by simpa using hlen, fun j => le_trans (getD_set_le _ _ _) (hle j)⟩

lemma fillBins_some {minVal binWidth : ℚ} {nb : ℤ} :
    ∀ {data : List ℚ} {bins : List ℕ},
      (∀ v ∈ data, 0 ≤ bucketIdx minVal binWidth nb v ∧
        (bucketIdx minVal binWidth nb v).toNat < bins.length) →
      ∃ bins', fillBins minVal binWidth nb data bins = some bins' := by
  intro data
  induction data with
  | nil => exact fun _ => ⟨_, rfl⟩
  | cons v rest ih =>
    intro bins hidx
    obtain ⟨h0, hlt⟩ := hidx v (List.mem_cons_self _ _)
    have hb := bumpAt_eq_some h0 hlt
    have hlen : (bins.set (bucketIdx minVal binWidth nb v).toNat
        (bins.getD (bucketIdx minVal binWidth nb v).toNat 0 + 1)).length = bins.length := by
      simp
    have hidx' : ∀ w ∈ rest, 0 ≤ bucketIdx minVal binWidth nb w ∧
        (bucketIdx minVal binWidth nb w).toNat <
          (bins.set (bucketIdx minVal binWidth nb v).toNat
            (bins.getD (bucketIdx minVal binWidth nb v).toNat 0 + 1)).length := by
      intro w hw
      obtain ⟨a, b⟩ := hidx w (List.mem_cons_of_mem _ hw)
      exact ⟨a, by rw [hlen]; exact b⟩
    obtain ⟨bins', hrest⟩ := ih hidx'
    refine ⟨bins', ?_⟩
    unfold fillBins
    rw [hb]
    exact hrest

lemma fillBins_pos {minVal binWidth : ℚ} {nb : ℤ} {data : List ℚ}
    {bins bins' : List ℕ}
    (h : fillBins minVal binWidth nb data bins = some bins') (hd : data ≠ []) :
    ∃ j, j < bins'.length ∧ 0 < bins'.getD j 0 := by
  cases data with
  | nil => exact absurd rfl hd
  | cons v rest =>
    unfold fillBins at h
    rcases hb : bumpAt bins (bucketIdx minVal binWidth nb v) with _ | bins₁
    · rw [hb] at h; exact Option.noConfusion h
    · rw [hb] at h
      replace h : fillBins minVal binWidth nb rest bins₁ = some bins' := h
      obtain ⟨h0, hlt, hset⟩ := bumpAt_inv hb
      obtain ⟨hlen, hle⟩ := fillBins_length_getD h
      set i := (bucketIdx minVal binWidth nb v).toNat with hi
      refine ⟨i, ?_, ?_⟩
      · rw [hlen, hset]
        simpa using hlt
      · have h1 : 0 < bins₁.getD i 0 := by
          rw [hset, List.getD_eq_getElem _ 0 (by simpa using hlt),
            List.getElem_set_self (by simpa using hlt)]
          omega
        exact lt_of_lt_of_le h1 (hle i)

lemma le_foldl_max (l : List ℕ) : ∀ (a : ℕ), a ≤ l.foldl max a := by
  induction l with
  | nil => exact fun a => le_refl a
  | cons x rest ih =>
    intro a
    exact le_trans (le_max_left a x) (ih (max a x))

lemma mem_le_foldl_max {l : List ℕ} {x : ℕ} (hx : x ∈ l) :
    ∀ (a : ℕ), x ≤ l.foldl max a := by
  induction l with
  | nil => simp at hx
  | cons y rest ih =>
    intro a
    rcases List.mem_cons.mp hx with rfl | hx'
    · exact le_trans (le_max_right a x) (le_foldl_max rest _)
    · exact ih hx' _

lemma foldl_max_le {l : List ℕ} {c : ℕ} (h : ∀ x ∈ l, x ≤ c) :
    ∀ {a : ℕ}, a ≤ c → l.foldl max a ≤ c := by
  induction l with
  | nil => exact fun ha => ha
  | cons y rest ih =>
    intro a ha
    exact ih (fun x hx => h x (List.mem_cons_of_mem _ hx))
      (max_le ha (h y (List.mem_cons_self _ _)))

lemma bucketIdx_bounds {minVal binWidth : ℚ} {nb : ℤ} {v : ℚ}
    (hw : 0 < binWidth) (hv : minVal ≤ v) (hnb : 1 ≤ nb) :
    0 ≤ bucketIdx minVal binWidth nb v ∧ bucketIdx minVal binWidth nb v < nb := by
  have hq : 0 ≤ (v - minVal) / binWidth := div_nonneg (by linarith) (le_of_lt hw)
  have hg : goTrunc ((v - minVal) / binWidth) = ⌊(v - minVal) / binWidth⌋ := by
    unfold goTrunc
    rw [if_pos hq]
  have hfl : 0 ≤ ⌊(v - minVal) / binWidth⌋ := Int.floor_nonneg.mpr hq
  unfold bucketIdx
  simp only [hg]
  by_cases hcl : nb ≤ ⌊(v - minVal) / binWidth⌋
  · rw [if_pos hcl]
    omega
  · rw [if_neg hcl]
    omega

lemma renderBins_some {maxCount : ℕ} (hpos : 0 < maxCount) :
    ∀ {bins : List ℕ}, (∀ c ∈ bins, c ≤ maxCount) →
      ∃ cs, renderBins maxCount bins = some cs ∧ cs.length = bins.length ∧
        ∀ ch ∈ cs, ch ∈ blocks := by
  intro bins
  induction bins with
  | nil => exact fun _ => ⟨[], rfl, rfl, by simp⟩
  | cons c rest ih =>
    intro hmc
    obtain ⟨cs, hcs, hlen, hmem⟩ := ih (fun x hx => hmc x (List.mem_cons_of_mem _ hx))
    have hc : c ≤ maxCount := hmc c (List.mem_cons_self _ _)
    have hlevel : (c * 7) / maxCount < blocks.length := by
      have h1 : c * 7 ≤ maxCount * 7 := Nat.mul_le_mul_right 7 hc
      have h2 : (c * 7) / maxCount ≤ (maxCount * 7) / maxCount :=
        Nat.div_le_div_right h1
      have h3 : (maxCount * 7) / maxCount = 7 := by
        rw [Nat.mul_div_cancel_left 7 hpos]
      have : blocks.length = 8 := rfl
      omega
    by_cases hc0 : c = 0
    · refine ⟨blocks.get ⟨0, by decide⟩ :: cs, ?_, by simpa using hlen, ?_⟩
      · unfold renderBins
        rw [if_pos hc0, List.get?_eq_getElem?, List.getElem?_eq_getElem (by decide), hcs]
        rfl
      · intro ch hch
        rcases List.mem_cons.mp hch with rfl | hch'
        · exact List.get_mem _ _ _
        · exact hmem ch hch'
    · refine ⟨blocks.get ⟨(c * 7) / maxCount, hlevel⟩ :: cs, ?_, by simpa using hlen, ?_⟩
      · unfold renderBins
        rw [if_neg hc0, if_neg (by omega), List.get?_eq_getElem?,
          List.getElem?_eq_getElem hlevel, hcs]
        rfl
      · intro ch hch
        rcases List.mem_cons.mp hch with rfl | hch'
        · exact List.get_mem _ _ _
        · exact hmem ch hch'

lemma generateSparkline_degenerate {l : List ℚ} (nb : ℤ)
    (h : l.length < 2 ∨ l.headI = l.getD (l.length - 1) 0) :
    generateSparkline l nb = some [] := by
  simp only [generateSparkline]
  rcases h with h | h
  · rw [if_pos h]
  · by_cases h2 : l.length < 2
    · rw [if_pos h2]
    · rw [if_neg h2, if_pos h]

lemma generateSparkline_some {l : List ℚ} {nb : ℤ} (hs : l.Sorted (· ≤ ·))
    (hn : 2 ≤ l.length) (hlt : l.headI ≠ l.getD (l.length - 1) 0) (hnb : 1 ≤ nb) :
    ∃ cs, generateSparkline l nb = some cs ∧ cs.length = nb.toNat ∧
      ∀ ch ∈ cs, ch ∈ blocks := by
  have hne : l ≠ [] := by
    intro h
    rw [h] at hn
    simp at hn
  have hminmax : l.headI < l.getD (l.length - 1) 0 :=
    lt_of_le_of_ne (sorted_le_getLast hs (headI_mem_of_ne_nil hne)) hlt
  have hwpos : 0 < (l.getD (l.length - 1) 0 - l.headI) / (nb : ℚ) := by
    apply div_pos (by linarith)
    exact_mod_cast lt_of_lt_of_le Int.zero_lt_one hnb
  have hidx : ∀ v ∈ l, 0 ≤ bucketIdx l.headI ((l.getD (l.length - 1) 0 - l.headI) / (nb : ℚ)) nb v ∧
      (bucketIdx l.headI ((l.getD (l.length - 1) 0 - l.headI) / (nb : ℚ)) nb v).toNat <
        (List.replicate nb.toNat (0 : ℕ)).length := by
    intro v hv
    obtain ⟨h0, hlt'⟩ := bucketIdx_bounds hwpos (sorted_headI_le hs hv) hnb
    refine ⟨h0, ?_⟩
    rw [List.length_replicate]
    omega
  obtain ⟨bins, hbins⟩ := fillBins_some hidx
  obtain ⟨hblen, _⟩ := fillBins_length_getD hbins
  rw [List.length_replicate] at hblen
  obtain ⟨j, hj, hjpos⟩ := fillBins_pos hbins hne
  have hjmem : bins.getD j 0 ∈ bins := by
    rw [List.getD_eq_getElem _ 0 hj]
    exact List.getElem_mem _
  have hmax : 0 < bins.foldl max 0 :=
    lt_of_lt_of_le hjpos (mem_le_foldl_max hjmem 0)
  obtain ⟨cs, hcs, hcslen, hcsmem⟩ :=
    renderBins_some hmax (fun c hc => mem_le_foldl_max hc 0)
  refine ⟨cs, ?_, by omega, hcsmem⟩
  simp only [generateSparkline]
  rw [if_neg (by omega), if_neg hminmax.ne, hbins]
  exact hcs

/-! ### `sortList` facts -/

lemma sortList_sorted (l : List ℚ) : (sortList l).Sorted (· ≤ ·) :=
  List.sorted_insertionSort _ l

lemma sortList_perm (l : List ℚ) : List.Perm (sortList l) l :=
  List.perm_insertionSort _ l

lemma mem_sortList {xs : List ℚ} {v : ℚ} : v ∈ sortList xs ↔ v ∈ xs :=
  (sortList_perm xs).mem_iff

lemma sortList_ne_nil {l : List ℚ} (h : l ≠ []) : sortList l ≠ [] := by
  intro h0
  apply h
  have hp := sortList_perm l
  rw [h0] at hp
  exact (hp.symm).eq_nil

lemma sortList_length (l : List ℚ) : (sortList l).length = l.length :=
  (sortList_perm l).length_eq

/-! ### Mode-finder facts -/

lemma count_le_goMaxFreq {data : List ℚ} {v : ℚ} (hv : v ∈ data) :
    data.count v ≤ goMaxFreq data := by
  have hmem : data.count v ∈ data.dedup.map (fun u => data.count u) :=
    List.mem_map.mpr ⟨v, List.mem_dedup.mpr hv, rfl⟩
  exact mem_le_foldl_max hmem 0

lemma count_le_goMaxFreq' (data : List ℚ) (v : ℚ) :
    data.count v ≤ goMaxFreq data := by
  by_cases hv : v ∈ data
  · exact count_le_goMaxFreq hv
  · rw [List.count_eq_zero_of_not_mem hv]
    exact Nat.zero_le _

lemma foldl_max_zero_mem {l : List ℕ} : l.foldl max 0 = 0 ∨ l.foldl max 0 ∈ l := by
  induction l using List.reverseRecOn with
  | nil => exact Or.inl rfl
  | append_singleton xs x ih =>
    rw [List.foldl_append]
    simp only [List.foldl_cons, List.foldl_nil]
    rcases le_or_lt x (xs.foldl max 0) with hle | hlt
    · rw [max_eq_left hle]
      rcases ih with h | h
      · exact Or.inl h
      · exact Or.inr (List.mem_append_left _ h)
    · rw [max_eq_right (le_of_lt hlt)]
      exact Or.inr (List.mem_append_right _ (List.mem_singleton.mpr rfl))

lemma goMaxFreq_attained {data : List ℚ} (hd : data ≠ []) :
    ∃ v ∈ data, data.count v = goMaxFreq data := by
  rcases foldl_max_zero_mem (l := data.dedup.map (fun u => data.count u)) with h0 | hmem
  · exfalso
    obtain ⟨v, hv⟩ := List.exists_mem_of_ne_nil data hd
    have h1 : 1 ≤ data.count v := List.count_pos_iff.mpr hv
    have h2 := count_le_goMaxFreq hv
    unfold goMaxFreq at h2
    omega
  · obtain ⟨v, hv, hc⟩ := List.mem_map.mp hmem
    exact ⟨v, List.mem_dedup.mp hv, hc⟩

lemma goMaxFreq_le_one_iff {data : List ℚ} :
    goMaxFreq data ≤ 1 ↔ ∀ v, data.count v ≤ 1 := by
  constructor
  · intro h v
    exact le_trans (count_le_goMaxFreq' data v) h
  · intro h
    unfold goMaxFreq
    refine foldl_max_le ?_ (Nat.zero_le 1)
    intro x hx
    obtain ⟨v, _, rfl⟩ := List.mem_map.mp hx
    exact h v

lemma goModes_sorted (data : List ℚ) : (goModes data).Sorted (· ≤ ·) := by
  unfold goModes
  split
  · exact List.sorted_nil
  · exact List.sorted_insertionSort _ _

lemma goModes_nodup (data : List ℚ) : (goModes data).Nodup := by
  unfold goModes
  split
  · exact List.nodup_nil
  · exact ((List.perm_insertionSort _ _).nodup_iff).mpr
      (List.Nodup.filter _ (List.nodup_dedup data))

lemma goModes_empty_iff {data : List ℚ} (hd : data ≠ []) :
    goModes data = [] ↔ ∀ v, data.count v ≤ 1 := by
  constructor
  · intro h
    by_contra hrep
    have hgt : 1 < goMaxFreq data := by
      rcases Nat.lt_or_ge 1 (goMaxFreq data) with h' | h'
      · exact h'
      · exact absurd (goMaxFreq_le_one_iff.mp h') hrep
    unfold goModes at h
    rw [if_neg (by omega)] at h
    obtain ⟨v, hv, hc⟩ := goMaxFreq_attained hd
    have hvmem : v ∈ data.dedup.filter (fun u => data.count u == goMaxFreq data) :=
      List.mem_filter.mpr ⟨List.mem_dedup.mpr hv, by simpa using hc⟩
    have : v ∈ sortList (data.dedup.filter (fun u => data.count u == goMaxFreq data)) :=
      mem_sortList.mpr hvmem
    rw [h] at this
    simp at this
  · intro h
    unfold goModes
    rw [if_pos (goMaxFreq_le_one_iff.mpr h)]

lemma goModes_mem_iff {data : List ℚ} (hd : data ≠ [])
    (hrep : ¬ ∀ v, data.count v ≤ 1) {v : ℚ} :
    v ∈ goModes data ↔ v ∈ data ∧ ∀ u, data.count u ≤ data.count v := by
  have hgt : 1 < goMaxFreq data := by
    rcases Nat.lt_or_ge 1 (goMaxFreq data) with h' | h'
    · exact h'
    · exact absurd (goMaxFreq_le_one_iff.mp h') hrep
  unfold goModes
  rw [if_neg (by omega)]
  rw [mem_sortList, List.mem_filter]
  constructor
  · rintro ⟨hmem, hcnt⟩
    have hc : data.count v = goMaxFreq data := by simpa using hcnt
    refine ⟨List.mem_dedup.mp hmem, fun u => ?_⟩
    rw [hc]
    exact count_le_goMaxFreq' data u
  · rintro ⟨hmem, hmax⟩
    refine ⟨List.mem_dedup.mpr hmem, ?_⟩
    obtain ⟨w, _, hw⟩ := goMaxFreq_attained hd
    have h1 : goMaxFreq data ≤ data.count v := hw ▸ hmax w
    have h2 : data.count v ≤ goMaxFreq data := count_le_goMaxFreq hmem
    simp [le_antisymm h2 h1]

/-! ### Sum-of-squares facts -/

lemma sum_sq_nonneg (data : List ℚ) (m : ℚ) :
    0 ≤ (data.map (fun v => (v - m) ^ 2)).sum := by
  apply List.sum_nonneg
  intro x hx
  obtain ⟨v, _, rfl⟩ := List.mem_map.mp hx
  positivity

lemma sum_sq_eq_zero_of_const {data : List ℚ} {a : ℚ}
    (h : ∀ x ∈ data, x = a) :
    (data.map (fun v => (v - data.sum / (data.length : ℚ)) ^ 2)).sum = 0 := by
  rcases eq_or_ne data [] with rfl | hne
  · simp
  · have hlen : (data.length : ℚ) ≠ 0 :=
      (Nat.cast_pos.mpr (List.length_pos.mpr hne)).ne'
    have hsum : data.sum = (data.length : ℚ) * a := by
      rw [List.sum_eq_card_nsmul data a h]
      simp [nsmul_eq_mul]
    have hmean : data.sum / (data.length : ℚ) = a := by
      rw [hsum, mul_comm, mul_div_assoc, div_self hlen, mul_one]
    apply List.sum_eq_zero
    intro x hx
    obtain ⟨v, hv, rfl⟩ := List.mem_map.mp hx
    rw [hmean, h v hv]
    ring

lemma sum_sq_pos_of_two_distinct {data : List ℚ} {x y : ℚ} (hx : x ∈ data)
    (hy : y ∈ data) (hxy : x ≠ y) (m : ℚ) :
    0 < (data.map (fun v => (v - m) ^ 2)).sum := by
  have hz : ∃ z ∈ data, z ≠ m := by
    by_cases hxm : x = m
    · exact ⟨y, hy, by rw [← hxm]; exact fun h => hxy h.symm⟩
    · exact ⟨x, hx, hxm⟩
  obtain ⟨z, hz, hzm⟩ := hz
  have hmem : (z - m) ^ 2 ∈ data.map (fun v => (v - m) ^ 2) :=
    List.mem_map.mpr ⟨z, hz, rfl⟩
  have hpos : 0 < (z - m) ^ 2 := by
    have : z - m ≠ 0 := sub_ne_zero.mpr hzm
    positivity
  calc 0 < (z - m) ^ 2 := hpos
    _ ≤ (data.map (fun v => (v - m) ^ 2)).sum := by
        apply List.single_le_sum _ _ hmem
        intro x hx
        obtain ⟨v, _, rfl⟩ := List.mem_map.mp hx
        positivity

/-! ### Running `computeStats`: inversion and success -/

lemma computeStats_empty (cps : List ℚ) (k : ℚ) (nb : ℤ) :
    computeStats [] cps k nb = some (CResult.err "input contains no valid numbers") :=
  rfl

lemma mapPercentiles_some {l : List ℚ} (hl : l ≠ []) :
    ∀ {cps : List ℚ}, (∀ p ∈ cps, 0 ≤ p ∧ p ≤ 100) →
      ∃ out, mapPercentiles l cps = some out := by
  intro cps
  induction cps with
  | nil => exact fun _ => ⟨[], rfl⟩
  | cons p rest ih =>
    intro hcps
    obtain ⟨h0, h100⟩ := hcps p (List.mem_cons_self _ _)
    have hp : calculatePercentile l (p / 100) = some (percentileContract l (p / 100)) := by
      apply calculatePercentile_eq_some hl
      · positivity
      · rw [div_le_one (by norm_num)]
        exact h100
    obtain ⟨out, hout⟩ := ih (fun q hq => hcps q (List.mem_cons_of_mem _ hq))
    refine ⟨(p, percentileContract l (p / 100)) :: out, ?_⟩
    unfold mapPercentiles
    rw [hp]
    show mapPercentiles l rest >>= _ = _
    rw [hout]
    rfl

lemma mapPercentiles_mem {l : List ℚ} :
    ∀ {cps : List ℚ} {out : List (ℚ × ℚ)},
      mapPercentiles l cps = some out →
      ∀ pv ∈ out, calculatePercentile l (pv.1 / 100) = some pv.2 := by
  intro cps
  induction cps with
  | nil =>
    intro out h pv hpv
    injection h with h
    subst h
    simp at hpv
  | cons p rest ih =>
    intro out h pv hpv
    unfold mapPercentiles at h
    rcases hp : calculatePercentile l (p / 100) with _ | v
    · rw [hp] at h; exact Option.noConfusion h
    · rw [hp] at h
      replace h : (mapPercentiles l rest).bind (fun tail => some ((p, v) :: tail)) = some out := h
      rcases hrest : mapPercentiles l rest with _ | tail
      · rw [hrest] at h; exact Option.noConfusion h
      · rw [hrest] at h
        replace h : some ((p, v) :: tail) = some out := h
        injection h with h
        subst h
        rcases List.mem_cons.mp hpv with rfl | hpv'
        · exact hp
        · exact ih hrest pv hpv'

/-- Inversion of a successful run: the fields of the result are the values
the source computes from `data` and the configuration. -/
lemma computeStats_ok_inv {data cps : List ℚ} {k : ℚ} {nb : ℤ} {s : Stats}
    (h : computeStats data cps k nb = some (CResult.ok s)) :
    data ≠ [] ∧
    s.count = data.length ∧
    s.sum = data.sum ∧
    s.mean = data.sum / (data.length : ℚ) ∧
    s.min = (sortList data).headI ∧
    s.max = (sortList data).getD (data.length - 1) 0 ∧
    s.median = percentileContract (sortList data) 0.50 ∧
    s.q1 = percentileContract (sortList data) 0.25 ∧
    s.q3 = percentileContract (sortList data) 0.75 ∧
    s.p95 = percentileContract (sortList data) 0.95 ∧
    s.p99 = percentileContract (sortList data) 0.99 ∧
    s.iqr = s.q3 - s.q1 ∧
    s.variance = (if 1 < data.length then
        (data.map (fun v => (v - data.sum / (data.length : ℚ)) ^ 2)).sum /
          ((data.length : ℚ) - 1)
      else 0) ∧
    s.mode = goModes data ∧
    s.outliers = sortList (data.filter (fun v =>
        decide (v < s.q1 - k * s.iqr) || decide (s.q3 + k * s.iqr < v))) ∧
    mapPercentiles (sortList data) cps = some s.customPercentiles ∧
    generateSparkline (sortList data) nb = some s.sparkline := by
  have hne : data ≠ [] := by
    intro hnil
    subst hnil
    rw [computeStats_empty] at h
    injection h with h
    exact CResult.noConfusion h
  have hpos : data.length ≠ 0 := fun h0 => hne (List.length_eq_zero.mp h0)
  have hlne : sortList data ≠ [] := sortList_ne_nil hne
  have h50 := calculatePercentile_eq_some (p := 0.50) hlne (by norm_num) (by norm_num)
  have h25 := calculatePercentile_eq_some (p := 0.25) hlne (by norm_num) (by norm_num)
  have h75 := calculatePercentile_eq_some (p := 0.75) hlne (by norm_num) (by norm_num)
  have h95 := calculatePercentile_eq_some (p := 0.95) hlne (by norm_num) (by norm_num)
  have h99 := calculatePercentile_eq_some (p := 0.99) hlne (by norm_num) (by norm_num)
  simp only [computeStats, if_neg hpos, h50, h25, h75, h95, h99,
    Option.bind_eq_bind, Option.some_bind] at h
  rcases hm : mapPercentiles (sortList data) cps with _ | custom
  · rw [hm] at h
    exact Option.noConfusion h
  · rw [hm] at h
    simp only [Option.some_bind] at h
    rcases hg : generateSparkline (sortList data) nb with _ | spark
    · rw [hg] at h
      exact Option.noConfusion h
    · rw [hg] at h
      simp only [Option.some_bind] at h
      injection h with h
      injection h with h
      subst h
      exact ⟨hne, rfl, rfl, rfl, rfl, rfl, rfl, rfl, rfl, rfl, rfl, rfl, rfl,
        rfl, rfl, rfl, rfl⟩

/-- A non-empty sample together with a configuration from the documented
domain (custom ranks in `[0,100]`, a positive bin count) always yields a
successful result. -/
lemma computeStats_ok_of {data cps : List ℚ} {k : ℚ} {nb : ℤ}
    (hd : data ≠ []) (hcps : ∀ p ∈ cps, 0 ≤ p ∧ p ≤ 100) (hnb : 1 ≤ nb) :
    ∃ s, computeStats data cps k nb = some (CResult.ok s) := by
  have hpos : data.length ≠ 0 := fun h0 => hd (List.length_eq_zero.mp h0)
  have hlne : sortList data ≠ [] := sortList_ne_nil hd
  have h50 := calculatePercentile_eq_some (p := 0.50) hlne (by norm_num) (by norm_num)
  have h25 := calculatePercentile_eq_some (p := 0.25) hlne (by norm_num) (by norm_num)
  have h75 := calculatePercentile_eq_some (p := 0.75) hlne (by norm_num) (by norm_num)
  have h95 := calculatePercentile_eq_some (p := 0.95) hlne (by norm_num) (by norm_num)
  have h99 := calculatePercentile_eq_some (p := 0.99) hlne (by norm_num) (by norm_num)
  obtain ⟨custom, hm⟩ := mapPercentiles_some hlne hcps
  have hspark : ∃ cs, generateSparkline (sortList data) nb = some cs := by
    by_cases h2 : (sortList data).length < 2
    · exact ⟨[], generateSparkline_degenerate nb (Or.inl h2)⟩
    · by_cases heq : (sortList data).headI =
        (sortList data).getD ((sortList data).length - 1) 0
      · exact ⟨[], generateSparkline_degenerate nb (Or.inr heq)⟩
      · obtain ⟨cs, hcs, _, _⟩ := generateSparkline_some (sortList_sorted data)
          (by omega) heq hnb
        exact ⟨cs, hcs⟩
  obtain ⟨cs, hcs⟩ := hspark
  simp only [computeStats, if_neg hpos, h50, h25, h75, h95, h99,
    Option.bind_eq_bind, Option.some_bind, hm, hcs]
  exact ⟨_, rfl⟩

/-- A non-empty sample never produces the returned-error outcome. -/
lemma computeStats_no_err {data cps : List ℚ} {k : ℚ} {nb : ℤ}
    (hd : data ≠ []) :
    ∀ msg, computeStats data cps k nb ≠ some (CResult.err msg) := by
  intro msg hcon
  have hpos : data.length ≠ 0 := fun h0 => hd (List.length_eq_zero.mp h0)
  have hlne : sortList data ≠ [] := sortList_ne_nil hd
  have h50 := calculatePercentile_eq_some (p := 0.50) hlne (by norm_num) (by norm_num)
  have h25 := calculatePercentile_eq_some (p := 0.25) hlne (by norm_num) (by norm_num)
  have h75 := calculatePercentile_eq_some (p := 0.75) hlne (by norm_num) (by norm_num)
  have h95 := calculatePercentile_eq_some (p := 0.95) hlne (by norm_num) (by norm_num)
  have h99 := calculatePercentile_eq_some (p := 0.99) hlne (by norm_num) (by norm_num)
  simp only [computeStats, if_neg hpos, h50, h25, h75, h95, h99,
    Option.bind_eq_bind, Option.some_bind] at hcon
  rcases hm : mapPercentiles (sortList data) cps with _ | custom
  · rw [hm] at hcon
    exact Option.noConfusion hcon
  · rw [hm] at hcon
    simp only [Option.some_bind] at hcon
    rcases hg : generateSparkline (sortList data) nb with _ | spark
    · rw [hg] at hcon
      exact Option.noConfusion hcon
    · rw [hg] at hcon
      simp only [Option.some_bind] at hcon
      injection hcon with hcon
      exact CResult.noConfusion hcon

lemma percentileContract_zero {l : List ℚ} (hne : l ≠ []) :
    percentileContract l 0 = l.headI := by
  have hpos : l.length ≠ 0 := fun h0 => hne (List.length_eq_zero.mp h0)
  rcases Nat.lt_or_ge l.length 2 with hn | hn
  · have hlen : l.length = 1 := by omega
    unfold percentileContract
    simp [hlen]
  · have h1 : l.length ≠ 1 := by omega
    unfold percentileContract
    simp only [if_neg hpos, if_neg h1, zero_mul, Int.floor_zero, Int.ceil_zero,
      if_pos rfl, Int.toNat_zero]
    exact (headI_eq_getD hne).symm

lemma percentileContract_one {l : List ℚ} (hne : l ≠ []) :
    percentileContract l 1 = l.getD (l.length - 1) 0 := by
  have hpos : l.length ≠ 0 := fun h0 => hne (List.length_eq_zero.mp h0)
  rcases Nat.lt_or_ge l.length 2 with hn | hn
  · have hlen : l.length = 1 := by omega
    unfold percentileContract
    simp [hlen, headI_eq_getD hne]
  · have h1 : l.length ≠ 1 := by omega
    have hcast : (1 : ℚ) * ((l.length : ℚ) - 1) = (((l.length : ℤ) - 1 : ℤ) : ℚ) := by
      push_cast
      ring
    have hidx : ((l.length : ℤ) - 1).toNat = l.length - 1 := by omega
    unfold percentileContract
    simp only [if_neg hpos, if_neg h1, hcast, Int.floor_intCast, Int.ceil_intCast,
      if_pos rfl, hidx, eq_self_iff_true, if_true]

/-! ### Slice-heap facts -/

lemma SliceHeap.read_alloc_old (h : SliceHeap) (l : List ℚ) {r : ℕ}
    (hr : r < h.arrays.length) : (h.alloc l).1.read r = h.read r := by
  unfold SliceHeap.alloc SliceHeap.read
  rw [List.getD_append _ _ _ _ hr]

lemma SliceHeap.read_alloc_new (h : SliceHeap) (l : List ℚ) :
    (h.alloc l).1.read (h.alloc l).2 = l := by
  unfold SliceHeap.alloc SliceHeap.read
  simp [List.getD_eq_getElem?_getD]

lemma SliceHeap.read_write_self (h : SliceHeap) {r : ℕ} (l : List ℚ)
    (hr : r < h.arrays.length) : (h.write r l).read r = l := by
  unfold SliceHeap.write SliceHeap.read
  rw [List.getD_eq_getElem _ _ (by simpa using hr), List.getElem_set_self (by simpa using hr)]

lemma SliceHeap.read_write_ne (h : SliceHeap) {r r' : ℕ} (l : List ℚ)
    (hne : r' ≠ r) : (h.write r' l).read r = h.read r := by
  unfold SliceHeap.write SliceHeap.read
  by_cases hr : r < h.arrays.length
  · rw [List.getD_eq_getElem _ _ (by simpa using hr),
      List.getD_eq_getElem _ _ hr, List.getElem_set_ne hne]
  · rw [List.getD_eq_default _ _ (by simpa using hr), List.getD_eq_default _ _ (by omega)]

lemma SliceHeap.write_length (h : SliceHeap) (r : ℕ) (l : List ℚ) :
    (h.write r l).arrays.length = h.arrays.length := by
  unfold SliceHeap.write
  simp

/-! ### Constant histograms -/

lemma foldl_max_const {bins : List ℕ} {c : ℕ} (hall : ∀ x ∈ bins, x = c)
    (hne : bins ≠ []) : bins.foldl max 0 = c := by
  obtain ⟨x, hx⟩ := List.exists_mem_of_ne_nil bins hne
  have hc : c ∈ bins := hall x hx ▸ hx
  refine le_antisymm ?_ (mem_le_foldl_max hc 0)
  exact foldl_max_le (fun x hx => le_of_eq (hall x hx)) (Nat.zero_le c)

lemma renderBins_const {c : ℕ} (hc : 0 < c) :
    ∀ {bins : List ℕ}, (∀ x ∈ bins, x = c) →
      renderBins c bins = some (List.replicate bins.length '█') := by
  intro bins
  induction bins with
  | nil => exact fun _ => rfl
  | cons b rest ih =>
    intro hall
    have hb : b = c := hall b (List.mem_cons_self _ _)
    have hlevel : (b * 7) / c = 7 := by
      rw [hb, mul_comm, Nat.mul_div_cancel 7 hc]
    unfold renderBins
    rw [if_neg (by omega), if_neg (by omega), hlevel]
    rw [show blocks.get? 7 = some '█' from rfl]
    rw [ih (fun x hx => hall x (List.mem_cons_of_mem _ hx))]
    rfl

/-! ## Claim theorems -/

/-- C1: `calculatePercentile(sortedData, p)` satisfies the
percentile-interpolator contract: for the empty sequence it returns 0; for
a single-element sequence it returns that element for any `p`; otherwise
(for the contract's domain `p ∈ [0,1]`) it returns exactly the value
prescribed by the spec formula (`percentileContract`); on the ascending
sequence `[1,…,10]` it returns 3.25 for `p = 0.25` and 5.5 for `p = 0.5`;
and for every non-empty ascending sequence it returns the minimum (the
head, which bounds every element from below) for `p = 0` and the maximum
(the last element, which bounds every element from above) for `p = 1`. -/
theorem calculatePercentile_meets_contract (l : List ℚ) (p : ℚ) :
    (l = [] → calculatePercentile l p = some 0) ∧
    (∀ a, l = [a] → calculatePercentile l p = some a) ∧
    (0 ≤ p → p ≤ 1 → calculatePercentile l p = some (percentileContract l p)) ∧
    calculatePercentile [1, 2, 3, 4, 5, 6, 7, 8, 9, 10] 0.25 = some 3.25 ∧
    calculatePercentile [1, 2, 3, 4, 5, 6, 7, 8, 9, 10] 0.5 = some 5.5 ∧
    (l ≠ [] → l.Sorted (· ≤ ·) →
      (calculatePercentile l 0 = some l.headI ∧ ∀ x ∈ l, l.headI ≤ x) ∧
      (calculatePercentile l 1 = some (l.getD (l.length - 1) 0) ∧
        ∀ x ∈ l, x ≤ l.getD (l.length - 1) 0)) := by
  refine ⟨?_, ?_, ?_, by decide, by decide, ?_⟩
  · rintro rfl
    rfl
  · rintro a rfl
    rfl
  · intro h0 h1
    rcases eq_or_ne l [] with rfl | hne
    · rfl
    · exact calculatePercentile_eq_some hne h0 h1
  · intro hne hs
    refine ⟨⟨?_, fun x hx => sorted_headI_le hs hx⟩,
            ⟨?_, fun x hx => sorted_le_getLast hs hx⟩⟩
    · rw [calculatePercentile_eq_some hne (le_refl 0) (by norm_num),
        percentileContract_zero hne]
    · rw [calculatePercentile_eq_some hne (by norm_num) (le_refl 1),
        percentileContract_one hne]

/-- Witness for C1 at the concrete sorted input `[3,7]`, `p = 0`. -/
theorem calculatePercentile_meets_contract_witness :
    calculatePercentile [(3 : ℚ), 7] 0 = some 3 := by
  have h := ((calculatePercentile_meets_contract [(3 : ℚ), 7] 0).2.2.2.2.2
    (by decide) (by decide)).1.1
  simpa using h

/-- C3 counterexample: for the two-element sorted sequence `[1,2]`,
`calculatePercentile` with `p = 2` computes `rank = 2` and reads
`sortedData[2]`, an out-of-bounds access (a Go runtime panic, `none` in
the model); with `p = -1` the index is `-1`, likewise out of bounds.  The
claim that the function returns a value normally for every `p`, including
`p < 0` and `p > 1`, is therefore false. -/
theorem calculatePercentile_out_of_range_panics :
    calculatePercentile [(1 : ℚ), 2] 2 = none ∧
    calculatePercentile [(1 : ℚ), 2] (-1) = none := by
  decide

/-- C3 as amended: `calculatePercentile` returns a value normally (no
error, no out-of-bounds access) for every sorted sequence when `p ∈ [0,1]`,
and for sequences of fewer than two elements for every `p`; only the
combination of `p` outside `[0,1]` with at least two elements reads out of
bounds. -/
theorem calculatePercentile_safe_for_valid_p (l : List ℚ) (p : ℚ) :
    (0 ≤ p → p ≤ 1 → (calculatePercentile l p).isSome) ∧
    (l.length ≤ 1 → (calculatePercentile l p).isSome) := by
  constructor
  · intro h0 h1
    rcases eq_or_ne l [] with rfl | hne
    · rfl
    · rw [calculatePercentile_eq_some hne h0 h1]
      rfl
  · intro hlen
    rcases l with _ | ⟨a, _ | ⟨b, t⟩⟩
    · rfl
    · rfl
    · simp at hlen

/-- Witness for the amended C3 at `[1,2,3]`, `p = 1/3`. -/
theorem calculatePercentile_safe_for_valid_p_witness :
    (calculatePercentile [(1 : ℚ), 2, 3] (1/3)).isSome :=
  (calculatePercentile_safe_for_valid_p [(1 : ℚ), 2, 3] (1/3)).1
    (by norm_num) (by norm_num)

/-- C2: every successful result of `computeStats` satisfies
`Min ≤ Q1 ≤ Median ≤ Q3 ≤ Max`, `IQR = Q3 − Q1 ≥ 0`, and every returned
percentile field — `Median`, `Q1`, `Q3`, `P95`, `P99` and each custom
percentile whose requested rank lies in `[0,100]` — lies within
`[Min, Max]` of the sample. -/
theorem computeStats_quantile_invariants (data cps : List ℚ) (k : ℚ) (nb : ℤ)
    (s : Stats) (h : computeStats data cps k nb = some (CResult.ok s)) :
    s.min ≤ s.q1 ∧ s.q1 ≤ s.median ∧ s.median ≤ s.q3 ∧ s.q3 ≤ s.max ∧
    s.iqr = s.q3 - s.q1 ∧ 0 ≤ s.iqr ∧
    s.min ≤ s.median ∧ s.median ≤ s.max ∧
    s.min ≤ s.p95 ∧ s.p95 ≤ s.max ∧ s.min ≤ s.p99 ∧ s.p99 ≤ s.max ∧
    (∀ pv ∈ s.customPercentiles, 0 ≤ pv.1 → pv.1 ≤ 100 →
      s.min ≤ pv.2 ∧ pv.2 ≤ s.max) := by
  obtain ⟨hne, hcount, hsum, hmean, hmin, hmax, hmed, hq1, hq3, hp95, hp99,
    hiqr, hvar, hmode, hout, hcustom, hspark⟩ := computeStats_ok_inv h
  have hlne : sortList data ≠ [] := sortList_ne_nil hne
  have hs : (sortList data).Sorted (· ≤ ·) := sortList_sorted data
  have hlen : (sortList data).length = data.length := sortList_length data
  have hmax' : s.max = (sortList data).getD ((sortList data).length - 1) 0 := by
    rw [hmax, hlen]
  have mono : ∀ p p' : ℚ, 0 ≤ p → p ≤ p' → p' ≤ 1 →
      percentileContract (sortList data) p ≤ percentileContract (sortList data) p' :=
    fun p p' a b c => percentileContract_mono hs hlne a b c
  have bounds : ∀ p : ℚ, 0 ≤ p → p ≤ 1 →
      (sortList data).headI ≤ percentileContract (sortList data) p ∧
      percentileContract (sortList data) p ≤
        (sortList data).getD ((sortList data).length - 1) 0 :=
    fun p a b => percentileContract_bounds hs hlne a b
  refine ⟨?_, ?_, ?_, ?_, hiqr, ?_, ?_, ?_, ?_, ?_, ?_, ?_, ?_⟩
  · rw [hmin, hq1]
    exact (bounds 0.25 (by norm_num) (by norm_num)).1
  · rw [hq1, hmed]
    exact mono 0.25 0.50 (by norm_num) (by norm_num) (by norm_num)
  · rw [hmed, hq3]
    exact mono 0.50 0.75 (by norm_num) (by norm_num) (by norm_num)
  · rw [hq3, hmax']
    exact (bounds 0.75 (by norm_num) (by norm_num)).2
  · rw [hiqr, hq1, hq3]
    have := mono 0.25 0.75 (by norm_num) (by norm_num) (by norm_num)
    linarith
  · rw [hmin, hmed]
    exact (bounds 0.50 (by norm_num) (by norm_num)).1
  · rw [hmed, hmax']
    exact (bounds 0.50 (by norm_num) (by norm_num)).2
  · rw [hmin, hp95]
    exact (bounds 0.95 (by norm_num) (by norm_num)).1
  · rw [hp95, hmax']
    exact (bounds 0.95 (by norm_num) (by norm_num)).2
  · rw [hmin, hp99]
    exact (bounds 0.99 (by norm_num) (by norm_num)).1
  · rw [hp99, hmax']
    exact (bounds 0.99 (by norm_num) (by norm_num)).2
  · intro pv hpv h0 h100
    have hcalc := mapPercentiles_mem hcustom pv hpv
    have hp0 : (0 : ℚ) ≤ pv.1 / 100 := by positivity
    have hp1 : pv.1 / 100 ≤ 1 := by
      rw [div_le_one (by norm_num)]
      exact h100
    rw [calculatePercentile_eq_some hlne hp0 hp1] at hcalc
    injection hcalc with hval
    rw [hmin, hmax', ← hval]
    exact bounds _ hp0 hp1

/-- Witness for C2 at the concrete run `computeStats([1,2], [], 1.5, 16)`. -/
theorem computeStats_quantile_invariants_witness :
    statsTwo.min ≤ statsTwo.q1 ∧ statsTwo.q1 ≤ statsTwo.median := by
  have h := computeStats_quantile_invariants [1, 2] [] (3/2) 16 statsTwo (by decide)
  exact ⟨h.1, h.2.1⟩

/-- C4: every successful result of `computeStats` carries the sample
variance with divisor `n−1`: `Variance = Σ(x−mean)²/(n−1)` when `n > 1`
and `Variance = 0` when `n ≤ 1`; `Variance ≥ 0` always; the standard
deviation (`math.Sqrt(Variance)`, modelled as `Real.sqrt`) squares back to
the variance; both are exactly 0 when the count is at most 1 or all values
are equal; and the standard deviation is strictly positive for every
sample with at least two distinct values. -/
theorem computeStats_sample_variance (data cps : List ℚ) (k : ℚ) (nb : ℤ)
    (s : Stats) (h : computeStats data cps k nb = some (CResult.ok s)) :
    (1 < s.count → s.variance =
      (data.map (fun x => (x - data.sum / (data.length : ℚ)) ^ 2)).sum /
        ((data.length : ℚ) - 1)) ∧
    (s.count ≤ 1 → s.variance = 0) ∧
    0 ≤ s.variance ∧
    Real.sqrt ((s.variance : ℚ) : ℝ) ^ 2 = ((s.variance : ℚ) : ℝ) ∧
    (∀ a, (∀ x ∈ data, x = a) →
      s.variance = 0 ∧ Real.sqrt ((s.variance : ℚ) : ℝ) = 0) ∧
    ((∃ x ∈ data, ∃ y ∈ data, x ≠ y) →
      0 < s.variance ∧ 0 < Real.sqrt ((s.variance : ℚ) : ℝ)) := by
  obtain ⟨hne, hcount, hsum, hmean, hmin, hmax, hmed, hq1, hq3, hp95, hp99,
    hiqr, hvar, hmode, hout, hcustom, hspark⟩ := computeStats_ok_inv h
  have hnonneg : 0 ≤ s.variance := by
    rw [hvar]
    by_cases hn : 1 < data.length
    · rw [if_pos hn]
      have h1 : (1 : ℚ) ≤ (data.length : ℚ) := by exact_mod_cast Nat.one_le_of_lt hn
      exact div_nonneg (sum_sq_nonneg data _) (by linarith)
    · rw [if_neg hn]
  have hconst : ∀ a, (∀ x ∈ data, x = a) → s.variance = 0 := by
    intro a ha
    rw [hvar]
    by_cases hn : 1 < data.length
    · rw [if_pos hn, sum_sq_eq_zero_of_const ha, zero_div]
    · rw [if_neg hn]
  refine ⟨?_, ?_, hnonneg, ?_, ?_, ?_⟩
  · intro h2
    rw [hcount] at h2
    rw [hvar, if_pos h2]
  · intro h1
    rw [hcount] at h1
    rw [hvar, if_neg (by omega)]
  · exact Real.sq_sqrt (by exact_mod_cast hnonneg)
  · intro a ha
    refine ⟨hconst a ha, ?_⟩
    rw [hconst a ha]
    simp [Real.sqrt_zero]
  · rintro ⟨x, hx, y, hy, hxy⟩
    have hn2 : 2 ≤ data.length := by
      rcases data with _ | ⟨a, _ | ⟨b, t⟩⟩
      · simp at hx
      · rw [List.mem_singleton] at hx hy
        exact absurd (hx.trans hy.symm) hxy
      · simp only [List.length_cons]
        omega
    have hpos : 0 < s.variance := by
      rw [hvar, if_pos (by omega)]
      have hden : (0 : ℚ) < (data.length : ℚ) - 1 := by
        have : (2 : ℚ) ≤ (data.length : ℚ) := by exact_mod_cast hn2
        linarith
      exact div_pos (sum_sq_pos_of_two_distinct hx hy hxy _) hden
    exact ⟨hpos, Real.sqrt_pos.mpr (by exact_mod_cast hpos)⟩

/-- Witness for C4 at the concrete run `computeStats([1,2], [], 1.5, 16)`:
the sample has two distinct values, so variance and standard deviation are
strictly positive. -/
theorem computeStats_sample_variance_witness :
    (0 : ℚ) < statsTwo.variance ∧ 0 < Real.sqrt ((statsTwo.variance : ℚ) : ℝ) := by
  have h := computeStats_sample_variance [1, 2] [] (3/2) 16 statsTwo (by decide)
  exact h.2.2.2.2.2 ⟨1, by decide, 2, by decide, by decide⟩

/-- C5: in every successful result of `computeStats` with IQR multiplier
`k`, a value occurs in the outlier list iff it occurs in the sample and
lies strictly outside `[Q1 − k·IQR, Q3 + k·IQR]`; the list is sorted
ascending and is per-occurrence a sub-multiset of the sample; and on the
31-value test fixture (`Q1 = 27.5`, `Q3 = 72.625`, `IQR = 45.125`) the
outliers are `[150]` for `k = 1.5`, `[]` for `k = 3.0` and `[150]` for
`k = 1.0`. -/
theorem computeStats_iqr_outliers (data cps : List ℚ) (k : ℚ) (nb : ℤ)
    (s : Stats) (h : computeStats data cps k nb = some (CResult.ok s)) :
    (∀ v, v ∈ s.outliers ↔
      v ∈ data ∧ (v < s.q1 - k * s.iqr ∨ s.q3 + k * s.iqr < v)) ∧
    s.outliers.Sorted (· ≤ ·) ∧
    (∀ v, s.outliers.count v ≤ data.count v) ∧
    (runStats testData [] 1.5 16).map Stats.q1 = some 27.5 ∧
    (runStats testData [] 1.5 16).map Stats.q3 = some 72.625 ∧
    (runStats testData [] 1.5 16).map Stats.iqr = some 45.125 ∧
    (runStats testData [] 1.5 16).map Stats.outliers = some [150] ∧
    (runStats testData [] 3.0 16).map Stats.outliers = some [] ∧
    (runStats testData [] 1.0 16).map Stats.outliers = some [150] := by
  obtain ⟨hne, hcount, hsum, hmean, hmin, hmax, hmed, hq1, hq3, hp95, hp99,
    hiqr, hvar, hmode, hout, hcustom, hspark⟩ := computeStats_ok_inv h
  refine ⟨?_, ?_, ?_, by decide, by decide, by decide, by decide, by decide,
    by decide⟩
  · intro v
    rw [hout, mem_sortList, List.mem_filter]
    simp only [Bool.or_eq_true, decide_eq_true_eq]
  · rw [hout]
    exact sortList_sorted _
  · intro v
    rw [hout, (sortList_perm _).count_eq]
    exact (List.filter_sublist data).count_le v

/-- Witness for C5 at the concrete run `computeStats([1,2], [], 1.5, 16)`. -/
theorem computeStats_iqr_outliers_witness :
    statsTwo.outliers.Sorted (· ≤ ·) :=
  (computeStats_iqr_outliers [1, 2] [] (3/2) 16 statsTwo (by decide)).2.1

/-- C6: in every successful result of `computeStats`, the mode list is
empty iff no value occurs more than once; otherwise it contains exactly
the distinct values whose occurrence count is maximal, without duplicates
and sorted ascending; the mode of `[5,5,10,10,15]` is `[5,10]` and the
mode of `[1,2,3,4,5]` is `[]`. -/
theorem computeStats_mode_spec (data cps : List ℚ) (k : ℚ) (nb : ℤ)
    (s : Stats) (h : computeStats data cps k nb = some (CResult.ok s)) :
    (s.mode = [] ↔ ∀ v, data.count v ≤ 1) ∧
    (¬ (∀ v, data.count v ≤ 1) →
      ∀ v, v ∈ s.mode ↔ v ∈ data ∧ ∀ u, data.count u ≤ data.count v) ∧
    s.mode.Sorted (· ≤ ·) ∧ s.mode.Nodup ∧
    (runStats [5, 5, 10, 10, 15] [] 1.5 16).map Stats.mode = some [5, 10] ∧
    (runStats [1, 2, 3, 4, 5] [] 1.5 16).map Stats.mode = some [] := by
  obtain ⟨hne, hcount, hsum, hmean, hmin, hmax, hmed, hq1, hq3, hp95, hp99,
    hiqr, hvar, hmode, hout, hcustom, hspark⟩ := computeStats_ok_inv h
  refine ⟨?_, ?_, ?_, ?_, by decide, by decide⟩
  · rw [hmode]
    exact goModes_empty_iff hne
  · intro hrep v
    rw [hmode]
    exact goModes_mem_iff hne hrep
  · rw [hmode]
    exact goModes_sorted data
  · rw [hmode]
    exact goModes_nodup data

/-- Witness for C6 at the concrete run `computeStats([1,2], [], 1.5, 16)`. -/
theorem computeStats_mode_spec_witness :
    statsTwo.mode.Sorted (· ≤ ·) ∧ statsTwo.mode.Nodup := by
  have h := computeStats_mode_spec [1, 2] [] (3/2) 16 statsTwo (by decide)
  exact ⟨h.2.2.1, h.2.2.2.1⟩

/-- C7: for configurations from their documented domain (each custom
percentile rank in `[0,100]`, bin count in `[5,50]`), `computeStats`
returns an error iff the sample is empty; the error outcome carries no
result value (the non-empty check is the single validation gate), and
every non-empty sample yields a fully constructed result with no error. -/
theorem computeStats_error_iff_empty (data cps : List ℚ) (k : ℚ) (nb : ℤ)
    (hcps : ∀ p ∈ cps, 0 ≤ p ∧ p ≤ 100) (hb5 : 5 ≤ nb) (hb50 : nb ≤ 50) :
    ((∃ msg, computeStats data cps k nb = some (CResult.err msg)) ↔ data = []) ∧
    (data = [] → computeStats data cps k nb =
      some (CResult.err "input contains no valid numbers")) ∧
    (data ≠ [] → ∃ s, computeStats data cps k nb = some (CResult.ok s)) := by
  refine ⟨⟨?_, ?_⟩, ?_, ?_⟩
  · rintro ⟨msg, hmsg⟩
    by_contra hne
    exact computeStats_no_err hne msg hmsg
  · rintro rfl
    exact ⟨_, computeStats_empty cps k nb⟩
  · rintro rfl
    exact computeStats_empty cps k nb
  · intro hne
    exact computeStats_ok_of hne hcps (by omega)

/-- Witness for C7 at the concrete input `[1,2]` with the default
configuration. -/
theorem computeStats_error_iff_empty_witness :
    ∃ s, computeStats [(1 : ℚ), 2] [] (3/2) 16 = some (CResult.ok s) := by
  have h := computeStats_error_iff_empty [(1 : ℚ), 2] [] (3/2) 16
    (by simp) (by norm_num) (by norm_num)
  exact h.2.2 (by simp)

/-- C8 counterexample: the strictly monotonically increasing sample
`[0,1,2,10]` (length ≥ 2) encoded with 5 bins yields the glyph sequence
`█ ▄ ▁ ▁ ▄`, whose palette level drops from the second glyph (`▄`, level 3)
to the third (`▁`, level 0) — the histogram encoder's glyph intensities of
a strictly increasing sample are NOT always non-decreasing, refuting that
part of the claim. -/
theorem generateSparkline_not_monotone_on_increasing :
    List.Pairwise (· < ·) [(0 : ℚ), 1, 2, 10] ∧
    2 ≤ ([(0 : ℚ), 1, 2, 10]).length ∧
    generateSparkline [(0 : ℚ), 1, 2, 10] 5 = some ['█', '▄', '▁', '▁', '▄'] ∧
    List.indexOf '▁' blocks < List.indexOf '▄' blocks := by
  decide

/-- C8 as amended: the histogram encoder returns the empty string for any
bin count on every sample with fewer than two values or with all values
identical; and for a sorted non-degenerate sample in which every one of
the (positively many) buckets receives the same positive count, every
glyph is the maximal-intensity block, so the glyph intensities are
(trivially) non-decreasing — a sufficient condition for monotone
intensities, not a characterization.  For a general strictly increasing
sample the intensity sequence can decrease (see the counterexample). -/
theorem generateSparkline_amended (l : List ℚ) (nb : ℤ) :
    (l.length < 2 → generateSparkline l nb = some []) ∧
    (∀ a, l ≠ [] → (∀ x ∈ l, x = a) → generateSparkline l nb = some []) ∧
    (∀ c bins, l.Sorted (· ≤ ·) → 2 ≤ l.length →
      l.headI ≠ l.getD (l.length - 1) 0 → 1 ≤ nb → 0 < c →
      fillBins l.headI ((l.getD (l.length - 1) 0 - l.headI) / (nb : ℚ)) nb l
        (List.replicate nb.toNat 0) = some bins →
      (∀ x ∈ bins, x = c) →
      generateSparkline l nb = some (List.replicate nb.toNat '█')) := by
  refine ⟨?_, ?_, ?_⟩
  · intro h2
    exact generateSparkline_degenerate nb (Or.inl h2)
  · intro a hne hall
    rcases Nat.lt_or_ge l.length 2 with h2 | h2
    · exact generateSparkline_degenerate nb (Or.inl h2)
    · refine generateSparkline_degenerate nb (Or.inr ?_)
      have e1 : l.headI = a := hall _ (headI_mem_of_ne_nil hne)
      have e2 : l.getD (l.length - 1) 0 = a := hall _ (getLast_mem_of_ne_nil hne)
      rw [e1, e2]
  · intro c bins hs h2 hd hnb hcpos hfill hall
    obtain ⟨hblen, -⟩ := fillBins_length_getD hfill
    rw [List.length_replicate] at hblen
    have hbne : bins ≠ [] := by
      intro h0
      rw [h0] at hblen
      simp at hblen
      omega
    have hmaxc : bins.foldl max 0 = c := foldl_max_const hall hbne
    simp only [generateSparkline]
    rw [if_neg (by omega), if_neg hd, hfill]
    show renderBins (bins.foldl max 0) bins = _
    rw [hmaxc, renderBins_const hcpos hall, hblen]

/-- Witness for the amended C8: `[1,2]` with 2 bins puts one value in each
bucket, and the histogram is two maximal blocks. -/
theorem generateSparkline_amended_witness :
    generateSparkline [(1 : ℚ), 2] 2 = some ['█', '█'] := by
  have h := (generateSparkline_amended [(1 : ℚ), 2] 2).2.2 1 [1, 1]
    (by decide) (by decide) (by decide) (by decide) (by decide) (by decide)
    (by decide)
  exact h.trans (by decide)

/-- C9: `computeStats` never mutates the caller's slice.  In the
slice-heap model of its slice-level effects (fresh `make`, `copy` into the
fresh slice, in-place sort of the fresh copy only, mode and outlier lists
built into further fresh slices), after the call the caller's cell holds
exactly the values it held before, the returned sorted-copy, mode and
outlier references are all distinct from the caller's reference, and the
sorted copy holds `sortList` of the caller's data. -/
theorem computeStats_preserves_caller_slice (h₀ : SliceHeap) (dataRef : ℕ)
    (k : ℚ) (hr : dataRef < h₀.arrays.length) :
    (computeStatsSliceEffects h₀ dataRef k).1.read dataRef = h₀.read dataRef ∧
    (computeStatsSliceEffects h₀ dataRef k).2.1 ≠ dataRef ∧
    (computeStatsSliceEffects h₀ dataRef k).2.2.1 ≠ dataRef ∧
    (computeStatsSliceEffects h₀ dataRef k).2.2.2 ≠ dataRef ∧
    (computeStatsSliceEffects h₀ dataRef k).1.read
      (computeStatsSliceEffects h₀ dataRef k).2.1
        = sortList (h₀.read dataRef) := by
  simp only [computeStatsSliceEffects]
  set X := List.replicate (h₀.read dataRef).length (0 : ℚ) with hX
  set h₁ := (h₀.alloc X).1 with hh₁
  set S := (h₀.alloc X).2 with hS
  set h₂ := h₁.write S (h₁.read dataRef) with hh₂
  set h₃ := h₂.write S (sortList (h₂.read S)) with hh₃
  set h₄ := (h₃.alloc (goModes (h₃.read dataRef))).1 with hh₄
  set M := (h₃.alloc (goModes (h₃.read dataRef))).2 with hM
  set q1 := percentileContract (h₄.read S) 0.25 with hq1
  set q3 := percentileContract (h₄.read S) 0.75 with hq3
  set OL := sortList ((h₄.read dataRef).filter (fun v =>
    decide (v < q1 - k * (q3 - q1)) || decide (q3 + k * (q3 - q1) < v))) with hOL
  set h₅ := (h₄.alloc OL).1 with hh₅
  set O := (h₄.alloc OL).2 with hO
  have lS : S = h₀.arrays.length := rfl
  have l₁ : h₁.arrays.length = h₀.arrays.length + 1 := by
    rw [hh₁]
    simp [SliceHeap.alloc]
  have l₂ : h₂.arrays.length = h₀.arrays.length + 1 := by
    rw [hh₂, SliceHeap.write_length, l₁]
  have l₃ : h₃.arrays.length = h₀.arrays.length + 1 := by
    rw [hh₃, SliceHeap.write_length, l₂]
  have lM : M = h₀.arrays.length + 1 := by
    rw [hM]
    exact l₃
  have l₄ : h₄.arrays.length = h₀.arrays.length + 2 := by
    rw [hh₄]
    show ((h₃.arrays ++ [goModes (h₃.read dataRef)]).length) = _
    simp [l₃]
  have lO : O = h₀.arrays.length + 2 := by
    rw [hO]
    exact l₄
  have r₁d : h₁.read dataRef = h₀.read dataRef := by
    rw [hh₁]
    exact SliceHeap.read_alloc_old h₀ X hr
  have r₂S : h₂.read S = h₀.read dataRef := by
    rw [hh₂, SliceHeap.read_write_self h₁ _ (by omega)]
    exact r₁d
  have r₂d : h₂.read dataRef = h₀.read dataRef := by
    rw [hh₂, SliceHeap.read_write_ne h₁ _ (by omega)]
    exact r₁d
  have r₃S : h₃.read S = sortList (h₀.read dataRef) := by
    rw [hh₃, SliceHeap.read_write_self h₂ _ (by omega), r₂S]
  have r₃d : h₃.read dataRef = h₀.read dataRef := by
    rw [hh₃, SliceHeap.read_write_ne h₂ _ (by omega)]
    exact r₂d
  have r₄S : h₄.read S = sortList (h₀.read dataRef) := by
    rw [hh₄, SliceHeap.read_alloc_old h₃ _ (by omega)]
    exact r₃S
  have r₄d : h₄.read dataRef = h₀.read dataRef := by
    rw [hh₄, SliceHeap.read_alloc_old h₃ _ (by omega)]
    exact r₃d
  have r₅d : h₅.read dataRef = h₀.read dataRef := by
    rw [hh₅, SliceHeap.read_alloc_old h₄ _ (by omega)]
    exact r₄d
  have r₅S : h₅.read S = sortList (h₀.read dataRef) := by
    rw [hh₅, SliceHeap.read_alloc_old h₄ _ (by omega)]
    exact r₄S
  exact ⟨r₅d, by omega, by omega, by omega, r₅S⟩

/-- Witness for C9 on the concrete one-slice heap holding `[3,1,2]`. -/
theorem computeStats_preserves_caller_slice_witness :
    (computeStatsSliceEffects ⟨[[3, 1, 2]]⟩ 0 (3/2)).1.read 0 = [3, 1, 2] := by
  have h := computeStats_preserves_caller_slice ⟨[[(3 : ℚ), 1, 2]]⟩ 0 (3/2)
    (by decide)
  exact h.1.trans (by decide)

/-- C10: for every sorted sample with at least two values, minimum strictly
below maximum, and bin count at least one, `generateSparkline` completes
without any out-of-range access (every bucket index lands in
`0..numBins-1` and every intensity level in `0..7`), and returns exactly
`numBins` glyphs, all drawn from the 8-rune block palette. -/
theorem generateSparkline_no_out_of_bounds (l : List ℚ) (nb : ℤ)
    (hs : l.Sorted (· ≤ ·)) (hn : 2 ≤ l.length)
    (hlt : l.headI < l.getD (l.length - 1) 0) (hnb : 1 ≤ nb) :
    ∃ cs, generateSparkline l nb = some cs ∧ cs.length = nb.toNat ∧
      ∀ ch ∈ cs, ch ∈ blocks :=
  generateSparkline_some hs hn (ne_of_lt hlt) hnb

/-- Witness for C10 at `[1,2]` with 2 bins. -/
theorem generateSparkline_no_out_of_bounds_witness :
    ∃ cs, generateSparkline [(1 : ℚ), 2] 2 = some cs ∧
      cs.length = (2 : ℤ).toNat ∧ ∀ ch ∈ cs, ch ∈ blocks :=
  generateSparkline_no_out_of_bounds [(1 : ℚ), 2] 2 (by decide) (by decide)
    (by decide) (by decide)
